import Mathlib

/-!
Verification development for `src/blockchain.py` (class `Blockchain` together
with the `mine` flow of the surrounding service).

Modelling conventions:
- Python dict/JSON values are modelled by the `Json` inductive; `json.dumps`
  with `sort_keys=True` is `dumps` below (escaping of special characters inside
  payload strings is not modelled; payloads are assumed escape-free).
- The SHA-256 primitive `hashlib.sha256(...).hexdigest()` is kept abstract as a
  parameter `sha : String → String`; every property below holds uniformly in
  that primitive, and witnesses instantiate it with concrete functions.
- `time()` timestamps are supplied by callers as integers (explicit clock input).
- Operations that can raise a Python exception (indexing an empty list) return
  `Option`, with `none` modelling the raised exception; the unbounded
  `proof_of_work` loop takes explicit fuel, `none` meaning it did not return
  within that many iterations.
- The `previous_hash` field of a Python block dict can hold an int (the genesis
  sentinel `1`), a digest string, `None`, or — as actually happens in the `mine`
  endpoint, which calls `new_block(last_block, proof)` — an entire block dict.
  `PrevHash` covers those cases, a nested dict being carried as its `Json` value.
-/

inductive Json where
  | null : Json
  | int (n : Int) : Json
  | str (s : String) : Json
  | arr (xs : List Json) : Json
  | obj (fields : List (String × Json)) : Json

mutual

/-- Decidable equality of JSON values (Python `==` on parsed JSON data). -/
def Json.decEq : (a b : Json) → Decidable (a = b)
  | .null, .null => isTrue rfl
  | .null, .int _ => isFalse nofun
  | .null, .str _ => isFalse nofun
  | .null, .arr _ => isFalse nofun
  | .null, .obj _ => isFalse nofun
  | .int _, .null => isFalse nofun
  | .int n, .int m =>
    decidable_of_iff (n = m) ⟨fun h => by rw [h], fun h => by injection h⟩
  | .int _, .str _ => isFalse nofun
  | .int _, .arr _ => isFalse nofun
  | .int _, .obj _ => isFalse nofun
  | .str _, .null => isFalse nofun
  | .str _, .int _ => isFalse nofun
  | .str s, .str t =>
    decidable_of_iff (s = t) ⟨fun h => by rw [h], fun h => by injection h⟩
  | .str _, .arr _ => isFalse nofun
  | .str _, .obj _ => isFalse nofun
  | .arr _, .null => isFalse nofun
  | .arr _, .int _ => isFalse nofun
  | .arr _, .str _ => isFalse nofun
  | .arr xs, .arr ys =>
    haveI : Decidable (xs = ys) := Json.decEqList xs ys
    decidable_of_iff (xs = ys) ⟨fun h => by rw [h], fun h => by injection h⟩
  | .arr _, .obj _ => isFalse nofun
  | .obj _, .null => isFalse nofun
  | .obj _, .int _ => isFalse nofun
  | .obj _, .str _ => isFalse nofun
  | .obj _, .arr _ => isFalse nofun
  | .obj fs, .obj gs =>
    haveI : Decidable (fs = gs) := Json.decEqFields fs gs
    decidable_of_iff (fs = gs) ⟨fun h => by rw [h], fun h => by injection h⟩

/-- Decidable equality of JSON arrays. -/
def Json.decEqList : (xs ys : List Json) → Decidable (xs = ys)
  | [], [] => isTrue rfl
  | [], _ :: _ => isFalse nofun
  | _ :: _, [] => isFalse nofun
  | x :: xs, y :: ys =>
    haveI : Decidable (x = y) := Json.decEq x y
    haveI : Decidable (xs = ys) := Json.decEqList xs ys
    decidable_of_iff (x = y ∧ xs = ys)
      ⟨fun h => by rw [h.1, h.2], fun h => by injection h with h1 h2; exact ⟨h1, h2⟩⟩

/-- Decidable equality of JSON object field lists. -/
def Json.decEqFields : (fs gs : List (String × Json)) → Decidable (fs = gs)
  | [], [] => isTrue rfl
  | [], _ :: _ => isFalse nofun
  | _ :: _, [] => isFalse nofun
  | (k, v) :: fs, (l, w) :: gs =>
    haveI : Decidable (v = w) := Json.decEq v w
    haveI : Decidable (fs = gs) := Json.decEqFields fs gs
    decidable_of_iff (k = l ∧ v = w ∧ fs = gs)
      ⟨fun h => by rw [h.1, h.2.1, h.2.2],
       fun h => by
        injection h with h1 h2
        injection h1 with ha hb
        exact ⟨ha, hb, h2⟩⟩

end

instance : DecidableEq Json := Json.decEq

/-- Key-ordering used by `json.dumps(..., sort_keys=True)` on rendered fields. -/
def keyLE (a b : String × String) : Prop := a.1 ≤ b.1

/-- Strict version of `keyLE`, used to show sorted outputs are unique. -/
def keyLT (a b : String × String) : Prop := a.1 < b.1

instance : DecidableRel keyLE := fun a b => inferInstanceAs (Decidable (a.1 ≤ b.1))

instance : IsTotal (String × String) keyLE := ⟨fun a b => le_total a.1 b.1⟩

instance : IsTrans (String × String) keyLE := ⟨fun _ _ _ h1 h2 => le_trans h1 h2⟩

instance : IsAntisymm (String × String) keyLT := ⟨fun _ _ h1 h2 => absurd h2 (lt_asymm h1)⟩

/-- Rendering of one already-dumped field, `"key": value`. -/
def renderPair (p : String × String) : String := "\"" ++ p.1 ++ "\": " ++ p.2

mutual

/-- `json.dumps(v, sort_keys=True)` with Python's default separators. -/
def dumps : Json → String
  | .null => "null"
  | .int n => toString n
  | .str s => "\"" ++ s ++ "\""
  | .arr xs => "[" ++ String.intercalate (", ") (dumpsList xs) ++ "]"
  | .obj fs =>
    "\x7b" ++
      String.intercalate (", ") ((List.insertionSort keyLE (dumpsFields fs)).map renderPair)
      ++ "\x7d"

/-- Pointwise `dumps` over the elements of a JSON array. -/
def dumpsList : List Json → List String
  | [] => []
  | x :: xs => dumps x :: dumpsList xs

/-- Pointwise `dumps` over the values of a JSON object's fields. -/
def dumpsFields : List (String × Json) → List (String × String)
  | [] => []
  | (k, v) :: fs => (k, dumps v) :: dumpsFields fs

end

structure Transaction where
  sender : String
  recipient : String
  amount : Int
  deriving DecidableEq

/-- The possible values of a block's `previous_hash` entry (see module header). -/
inductive PrevHash where
  | intVal (n : Int) : PrevHash
  | strVal (s : String) : PrevHash
  | noneVal : PrevHash
  | blockVal (j : Json) : PrevHash
  deriving DecidableEq

/-- Python truthiness of a `previous_hash` value, as tested by the
`previous_hash or self.hash(self.chain[-1])` expression in `new_block`.
A block dict always has five keys, hence is truthy. -/
def PrevHash.isTruthy : PrevHash → Bool
  | .intVal n => n != 0
  | .strVal s => s != ""
  | .noneVal => false
  | .blockVal _ => true

structure Block where
  index : Int
  timestamp : Int
  transactions : List Transaction
  proof : Int
  previous_hash : PrevHash
  deriving DecidableEq

structure State where
  chain : List Block
  current_transactions : List Transaction
  deriving DecidableEq

/-- The transaction dict built by `new_transaction`. -/
def Transaction.toJson (t : Transaction) : Json :=
  .obj [("sender", .str t.sender), ("recipient", .str t.recipient), ("amount", .int t.amount)]

/-- A `previous_hash` value as the JSON value it serializes to. -/
def PrevHash.toJson : PrevHash → Json
  | .intVal n => .int n
  | .strVal s => .str s
  | .noneVal => .null
  | .blockVal j => j

/-- The block dict literal built in `new_block`, in source order. -/
def Block.fields (b : Block) : List (String × Json) :=
  [("index", .int b.index), ("timestamp", .int b.timestamp),
   ("transactions", .arr (b.transactions.map Transaction.toJson)),
   ("proof", .int b.proof), ("previous_hash", b.previous_hash.toJson)]

/-- `Blockchain.hash`: SHA-256 hexdigest of `json.dumps(block, sort_keys=True)`. -/
def Blockchain.hash (sha : String → String) (b : Block) : String :=
  sha (dumps (.obj (Block.fields b)))

/-- `Blockchain.valid_proof`: the hexdigest of `f-string of last_proof, proof`
must start with four `'0'` characters. -/
def Blockchain.valid_proof (sha : String → String) (last_proof proof : Int) : Bool :=
  (sha (toString last_proof ++ toString proof)).take 4 == "0000"

/-- The `while` loop of `Blockchain.proof_of_work`, with explicit fuel. -/
def Blockchain.pow_search (sha : String → String) (last_proof : Int) : Nat → Int → Option Int
  | 0, _ => none
  | fuel + 1, proof =>
    if Blockchain.valid_proof sha last_proof proof then some proof
    else Blockchain.pow_search sha last_proof fuel (proof + 1)

/-- `Blockchain.proof_of_work`: search upward from 0 for a valid proof. -/
def Blockchain.proof_of_work (sha : String → String) (last_proof : Int) (fuel : Nat) : Option Int :=
  Blockchain.pow_search sha last_proof fuel 0

/-- `Blockchain.new_block`: seal the pending pool into a fresh block and append
it. `none` models the IndexError of `self.chain[-1]` on an empty chain when a
falsy `previous_hash` is supplied. -/
def Blockchain.new_block (sha : String → String) (st : State) (ts : Int)
    (previous_hash : PrevHash) (proof : Int) : Option (Block × State) :=
  (if previous_hash.isTruthy then some previous_hash
   else st.chain.getLast?.map fun last => PrevHash.strVal (Blockchain.hash sha last)).map
    fun ph =>
      let block : Block :=
        { index := (st.chain.length : Int) + 1, timestamp := ts,
          transactions := st.current_transactions, proof := proof, previous_hash := ph }
      (block, { chain := st.chain ++ [block], current_transactions := [] })

/-- `Blockchain.new_transaction`: append to the pending pool, then return
`self.last_block['index'] + 1` (`none` models the IndexError on an empty chain). -/
def Blockchain.new_transaction (st : State) (sender recipient : String) (amount : Int) :
    Option (Int × State) :=
  let st' : State :=
    { st with current_transactions :=
        st.current_transactions ++ [{ sender := sender, recipient := recipient, amount := amount }] }
  st'.chain.getLast?.map fun last => (last.index + 1, st')

/-- `Blockchain.last_block` (`self.chain[-1]`). -/
def Blockchain.last_block (st : State) : Option Block :=
  st.chain.getLast?

/-- `Blockchain.__init__`: empty chain and pool, then
`new_block(previous_hash=1, proof=100)`. The `none` fallback is unreachable
since the sentinel `1` is truthy. -/
def Blockchain.initState (sha : String → String) (ts : Int) : State :=
  match Blockchain.new_block sha { chain := [], current_transactions := [] } ts
      (PrevHash.intVal 1) 100 with
  | some r => r.2
  | none => { chain := [], current_transactions := [] }

/-- The `while current_index < len(chain)` loop of `Blockchain.valid_chain`. -/
def Blockchain.valid_chain_loop (sha : String → String) : Block → List Block → Bool
  | _, [] => true
  | last_block, block :: rest =>
    if block.previous_hash ≠ PrevHash.strVal (Blockchain.hash sha last_block) then false
    else if ¬ (Blockchain.valid_proof sha last_block.proof block.proof = true) then false
    else Blockchain.valid_chain_loop sha block rest

/-- `Blockchain.valid_chain`. `none` models the IndexError raised by
`chain[0]` on an empty candidate list. -/
def Blockchain.valid_chain (sha : String → String) (chain : List Block) : Option Bool :=
  match chain with
  | [] => none
  | first :: rest => some (Blockchain.valid_chain_loop sha first rest)

/-- The per-neighbour loop of `Blockchain.resolve_conflicts`, over the fetched
`(length, chain)` responses; `none` models an uncaught exception from
`valid_chain`. -/
def Blockchain.resolve_loop (sha : String → String) :
    List (Int × List Block) → Int → Option (List Block) → Option (Option (List Block))
  | [], _, new_chain => some new_chain
  | (length, chain) :: rest, max_length, new_chain =>
    if max_length < length then
      match Blockchain.valid_chain sha chain with
      | none => none
      | some true => Blockchain.resolve_loop sha rest length (some chain)
      | some false => Blockchain.resolve_loop sha rest max_length new_chain
    else Blockchain.resolve_loop sha rest max_length new_chain

/-- `Blockchain.resolve_conflicts`, over the list of successfully fetched
candidate `(length, chain)` pairs; returns the `replaced` flag and the state. -/
def Blockchain.resolve_conflicts (sha : String → String) (st : State)
    (candidates : List (Int × List Block)) : Option (Bool × State) :=
  (Blockchain.resolve_loop sha candidates (st.chain.length : Int) none).map fun new_chain =>
    match new_chain with
    | some c => if c.isEmpty then (false, st) else (true, { st with chain := c })
    | none => (false, st)

/-- The `/mine` endpoint flow: read the last block, run proof-of-work on its
proof, award the mining reward transaction, then call
`chain.new_block(last_block, proof)` — note the first positional argument is
the whole previous block dict, bound to the `previous_hash` parameter. -/
def Blockchain.mine (sha : String → String) (st : State) (ts : Int)
    (node_identifier : String) (fuel : Nat) : Option (Block × State) :=
  st.chain.getLast?.bind fun last_block =>
  (Blockchain.proof_of_work sha last_block.proof fuel).bind fun proof =>
  (Blockchain.new_transaction st ("0") node_identifier 1).bind fun r =>
  Blockchain.new_block sha r.2 ts (PrevHash.blockVal (Json.obj (Block.fields last_block))) proof

/-! Concrete instantiations of the abstract SHA-256 primitive, used by the
closed evaluations below. Under `sha0` every digest is `"0000"`, so every
proof is valid and every block hashes to `"0000"`. -/

def sha0 : String → String := fun _ => "0000"

/-- The genesis block built by `Blockchain.__init__` at clock reading 0. -/
def genesisB : Block :=
  { index := 1, timestamp := 0, transactions := [], proof := 100,
    previous_hash := PrevHash.intVal 1 }

/-- The block the `/mine` endpoint appends on a fresh node under `sha0`. -/
def minedB : Block :=
  { index := 2, timestamp := 1,
    transactions := [{ sender := "0", recipient := "node", amount := 1 }],
    proof := 0, previous_hash := PrevHash.blockVal (Json.obj (Block.fields genesisB)) }

lemma pow_search_least (sha : String → String) (a : Int) :
    ∀ (fuel : Nat) (s p : Int), Blockchain.pow_search sha a fuel s = some p →
      Blockchain.valid_proof sha a p = true ∧ s ≤ p ∧
        ∀ q : Int, s ≤ q → q < p → Blockchain.valid_proof sha a q = false
  | 0, s, p => by
    intro h
    exact absurd h (by simp [Blockchain.pow_search])
  | fuel + 1, s, p => by
    intro h
    rw [Blockchain.pow_search] at h
    by_cases hv : Blockchain.valid_proof sha a s = true
    · rw [if_pos hv] at h
      obtain rfl : s = p := by injection h
      exact ⟨hv, le_refl _, fun q hq1 hq2 => absurd (lt_of_le_of_lt hq1 hq2) (lt_irrefl _)⟩
    · rw [if_neg hv] at h
      obtain ⟨h1, h2, h3⟩ := pow_search_least sha a fuel (s + 1) p h
      refine ⟨h1, by omega, fun q hq1 hq2 => ?_⟩
      rcases eq_or_lt_of_le hq1 with rfl | hlt
      · exact Bool.eq_false_iff.mpr hv
      · exact h3 q (by omega) hq2

/-- C4: whenever `proof_of_work` terminates (within the given fuel), it returns
the smallest non-negative integer satisfying `valid_proof` against the previous
proof — in particular a valid one — since the search starts at 0 and increments
by 1. -/
theorem proof_of_work_least (sha : String → String) (a : Int) (fuel : Nat) (p : Int)
    (h : Blockchain.proof_of_work sha a fuel = some p) :
    Blockchain.valid_proof sha a p = true ∧ 0 ≤ p ∧
      ∀ q : Int, 0 ≤ q → q < p → Blockchain.valid_proof sha a q = false :=
  pow_search_least sha a fuel 0 p h

/-- Digest function making `52` the first string whose digest has four leading
zeros, so that the proof-of-work search for previous proof `5` stops at `2`. -/
def powSha : String → String := fun s => if s = "52" then ("0000") else ("")

/-- Witness for C4: under `powSha`, the search for previous proof 5 returns 2,
which is valid while 0 and 1 are not. -/
theorem proof_of_work_least_witness :
    Blockchain.valid_proof powSha 5 2 = true ∧ 0 ≤ (2 : Int) ∧
      ∀ q : Int, 0 ≤ q → q < 2 → Blockchain.valid_proof powSha 5 q = false :=
  proof_of_work_least powSha 5 10 2 (by decide)

/-- C1: the hash-link invariant is broken by the code: on a fresh node, one
call to the `/mine` flow appends a block whose `previous_hash` is the entire
previous block dict — `mine` calls `new_block(last_block, proof)`, binding the
block itself to the `previous_hash` parameter — not the digest of the previous
block; consequently the node's own chain fails its own `valid_chain`. -/
theorem mine_previous_hash_not_digest :
    Blockchain.mine sha0 (Blockchain.initState sha0 0) 1 ("node") 1
        = some (minedB, { chain := [genesisB, minedB], current_transactions := [] })
      ∧ minedB.previous_hash = PrevHash.blockVal (Json.obj (Block.fields genesisB))
      ∧ minedB.previous_hash ≠ PrevHash.strVal (Blockchain.hash sha0 genesisB)
      ∧ Blockchain.valid_chain sha0 [genesisB, minedB] = some false := by
  decide

/-- C5: sealing a block clears the pending pool, appends exactly one block
carrying exactly the pending transactions in submission order, and when
`previous_hash` is omitted (`None`) it is computed as the digest of the last
block. -/
theorem new_block_seals_pending (sha : String → String) (st : State) (ts : Int)
    (ph : PrevHash) (proofArg : Int) (h : st.chain ≠ []) :
    ∃ b st', Blockchain.new_block sha st ts ph proofArg = some (b, st') ∧
      st'.current_transactions = [] ∧
      st'.chain = st.chain ++ [b] ∧
      b.transactions = st.current_transactions ∧
      (ph = PrevHash.noneVal →
        b.previous_hash = PrevHash.strVal (Blockchain.hash sha (st.chain.getLast h))) := by
  rw [Blockchain.new_block]
  by_cases hT : ph.isTruthy = true
  · rw [if_pos hT]
    refine ⟨_, _, rfl, rfl, rfl, rfl, fun hph => ?_⟩
    subst hph
    simp [PrevHash.isTruthy] at hT
  · rw [if_neg hT, List.getLast?_eq_getLast_of_ne_nil h]
    exact ⟨_, _, rfl, rfl, rfl, rfl, fun _ => rfl⟩

/-- Witness for C5: sealing the single pending transaction of a concrete
one-block ledger with `previous_hash` omitted. -/
theorem new_block_seals_pending_witness :
    ∃ b st',
      Blockchain.new_block sha0
          { chain := [genesisB],
            current_transactions := [{ sender := "a", recipient := "b", amount := 3 }] }
          4 PrevHash.noneVal 9
        = some (b, st') ∧
      st'.current_transactions = [] ∧
      st'.chain = [genesisB] ++ [b] ∧
      b.transactions = [{ sender := "a", recipient := "b", amount := 3 }] ∧
      (PrevHash.noneVal = PrevHash.noneVal →
        b.previous_hash =
          PrevHash.strVal (Blockchain.hash sha0 (([genesisB] : List Block).getLast (by decide)))) :=
  new_block_seals_pending sha0
    { chain := [genesisB],
      current_transactions := [{ sender := "a", recipient := "b", amount := 3 }] }
    4 PrevHash.noneVal 9 (by decide)

/-- C9: `new_block` never verifies the supplied proof: even a proof invalid
under `valid_proof` against the last block's proof is sealed and appended with
no error signalled. -/
theorem new_block_accepts_invalid_proof (sha : String → String) (st : State) (ts : Int)
    (ph : PrevHash) (proofArg : Int) (last : Block)
    (hlast : st.chain.getLast? = some last)
    (hbad : Blockchain.valid_proof sha last.proof proofArg = false) :
    ∃ b st', Blockchain.new_block sha st ts ph proofArg = some (b, st') ∧
      st'.chain = st.chain ++ [b] ∧ b.proof = proofArg := by
  rw [Blockchain.new_block]
  by_cases hT : ph.isTruthy = true
  · rw [if_pos hT]
    exact ⟨_, _, rfl, rfl, rfl⟩
  · rw [if_neg hT, hlast]
    exact ⟨_, _, rfl, rfl, rfl⟩

/-- Digest function under which no string has four leading zeros, so no proof
is ever valid. -/
def badSha : String → String := fun _ => "ffff"

/-- Witness for C9: a concrete invalid proof is still sealed and appended. -/
theorem new_block_accepts_invalid_proof_witness :
    ∃ b st',
      Blockchain.new_block badSha { chain := [genesisB], current_transactions := [] }
          2 (PrevHash.strVal ("x")) 123 = some (b, st') ∧
      st'.chain = [genesisB] ++ [b] ∧ b.proof = 123 :=
  new_block_accepts_invalid_proof badSha
    { chain := [genesisB], current_transactions := [] } 2 (PrevHash.strVal ("x")) 123 genesisB
    (by decide) (by decide)

/-- C10: `valid_chain` on an empty candidate sequence does not return a
boolean — it raises (modelled by `none`, the `chain[0]` IndexError) — and the
case is reachable from conflict resolution whenever a peer reports a length
greater than the local chain's length together with an empty chain list. -/
theorem valid_chain_nil_crash (sha : String → String) (st : State) (len : Int)
    (h : (st.chain.length : Int) < len) :
    Blockchain.valid_chain sha [] = none ∧
      Blockchain.resolve_conflicts sha st [(len, [])] = none := by
  refine ⟨rfl, ?_⟩
  rw [Blockchain.resolve_conflicts, Blockchain.resolve_loop, if_pos h]
  rfl

/-- Witness for C10: a fresh one-block node crashes resolving against a peer
reporting length 5 with an empty chain. -/
theorem valid_chain_nil_crash_witness :
    Blockchain.valid_chain sha0 [] = none ∧
      Blockchain.resolve_conflicts sha0 (Blockchain.initState sha0 0) [(5, [])] = none :=
  valid_chain_nil_crash sha0 (Blockchain.initState sha0 0) 5 (by decide)

/-- The per-link check of `valid_chain`, as the spec words it: the block's
`previous_hash` equals the digest of the prior block in the candidate
sequence, and the proof-of-work relation holds between the two proofs. -/
def linkOK (sha : String → String) (a b : Block) : Prop :=
  b.previous_hash = PrevHash.strVal (Blockchain.hash sha a) ∧
    Blockchain.valid_proof sha a.proof b.proof = true

lemma valid_chain_loop_iff (sha : String → String) :
    ∀ (rest : List Block) (last : Block),
      (Blockchain.valid_chain_loop sha last rest = true) ↔
        List.Chain' (linkOK sha) (last :: rest)
  | [], last => by simp [Blockchain.valid_chain_loop]
  | b :: bs, last => by
    rw [Blockchain.valid_chain_loop, List.chain'_cons]
    by_cases h1 : b.previous_hash = PrevHash.strVal (Blockchain.hash sha last)
    · by_cases h2 : Blockchain.valid_proof sha last.proof b.proof = true
      · rw [if_neg (not_not_intro h1), if_neg (not_not_intro h2)]
        rw [valid_chain_loop_iff sha bs b]
        simp [linkOK, h1, h2]
      · rw [if_neg (not_not_intro h1), if_pos h2]
        simp [linkOK, h2]
    · rw [if_pos h1]
      simp [linkOK, h1]

/-- C6: on a non-empty candidate, `valid_chain` returns a boolean which is
true iff every block after the first is correctly hash-linked to and
proof-verified against its predecessor in the candidate sequence (so a
single-block chain validates trivially), and a freshly constructed ledger's
own one-genesis chain validates as true. -/
theorem valid_chain_iff_linked (sha : String → String) (ts : Int) (c : List Block)
    (h : c ≠ []) :
    (Blockchain.valid_chain sha c).isSome = true ∧
      (Blockchain.valid_chain sha c = some true ↔ List.Chain' (linkOK sha) c) ∧
      Blockchain.valid_chain sha (Blockchain.initState sha ts).chain = some true := by
  obtain ⟨first, rest, rfl⟩ := List.exists_cons_of_ne_nil h
  refine ⟨rfl, ?_, rfl⟩
  rw [Blockchain.valid_chain, Option.some_inj]
  exact valid_chain_loop_iff sha rest first

/-- Witness for C6 at a concrete two-block chain (which fails the link check
under `badSha`, since `minedB` stores a block dict, not a digest string). -/
theorem valid_chain_iff_linked_witness :
    (Blockchain.valid_chain badSha [genesisB, minedB]).isSome = true ∧
      (Blockchain.valid_chain badSha [genesisB, minedB] = some true ↔
        List.Chain' (linkOK badSha) [genesisB, minedB]) ∧
      Blockchain.valid_chain badSha (Blockchain.initState badSha 7).chain = some true :=
  valid_chain_iff_linked badSha 7 [genesisB, minedB] (by decide)

/-- A block with a bogus index, as a lying peer can serve it: `valid_chain`
never inspects `index`, so a single-block candidate like this one validates. -/
def idx7B : Block :=
  { index := 7, timestamp := 0, transactions := [], proof := 0,
    previous_hash := PrevHash.intVal 1 }

/-- The state after adopting the lying peer's one-block chain. -/
def c7adopted : State := { chain := [idx7B], current_transactions := [] }

/-- The state after then submitting one transaction to `c7adopted`. -/
def c7after : State :=
  { chain := [idx7B],
    current_transactions := [{ sender := "alice", recipient := "bob", amount := 2 }] }

/-- Counterexample to C7 as stated: after adopting (through conflict
resolution, reachable via the public operations) a valid-looking chain whose
last block carries index 7, `new_transaction` returns 8, not chain length + 1
(which is 2) — the code returns `last_block.index + 1`, not `len(chain) + 1`. -/
theorem new_transaction_not_length_succ :
    Blockchain.resolve_conflicts sha0 (Blockchain.initState sha0 0) [(5, [idx7B])]
        = some (true, c7adopted)
      ∧ Blockchain.new_transaction c7adopted ("alice") ("bob") 2 = some (8, c7after)
      ∧ (8 : Int) ≠ ((c7adopted.chain.length : Int) + 1) := by
  decide

/-- C7 (amended): `new_transaction` appends exactly one transaction to the
pending pool, never fails when the chain is non-empty, and returns the last
block's `index + 1` — which coincides with chain length + 1 exactly when the
last block's index equals the chain length, as holds for chains built by
`__init__` and `new_block` alone. -/
theorem new_transaction_appends_returns_last_index (st : State)
    (sender recipient : String) (amount : Int) (last : Block)
    (hlast : st.chain.getLast? = some last) :
    Blockchain.new_transaction st sender recipient amount
      = some (last.index + 1,
          { st with current_transactions :=
              st.current_transactions ++
                [{ sender := sender, recipient := recipient, amount := amount }] }) := by
  simp [Blockchain.new_transaction, hlast]

/-- Witness for C7 (amended): on a fresh ledger the returned value is 2. -/
theorem new_transaction_appends_returns_last_index_witness :
    Blockchain.new_transaction (Blockchain.initState sha0 0) "alice" "bob" 2
      = some (genesisB.index + 1,
          { Blockchain.initState sha0 0 with current_transactions :=
              (Blockchain.initState sha0 0).current_transactions ++
                [{ sender := "alice", recipient := "bob", amount := 2 }] }) :=
  new_transaction_appends_returns_last_index (Blockchain.initState sha0 0)
    "alice" "bob" 2 genesisB (by decide)

lemma dumpsFields_eq_map (fs : List (String × Json)) :
    dumpsFields fs = fs.map fun p => (p.1, dumps p.2) := by
  induction fs with
  | nil => rfl
  | cons p fs ih => cases p with | mk k v => simp [dumpsFields, ih]

lemma keys_dumpsFields (fs : List (String × Json)) :
    (dumpsFields fs).map Prod.fst = fs.map Prod.fst := by
  rw [dumpsFields_eq_map, List.map_map]
  rfl

lemma sorted_keyLT_of_sorted_keyLE :
    ∀ l : List (String × String), List.Sorted keyLE l → (l.map Prod.fst).Nodup →
      List.Sorted keyLT l
  | [], _, _ => List.Pairwise.nil
  | p :: l, hs, hn => by
    rw [List.sorted_cons] at hs ⊢
    rw [List.map_cons, List.nodup_cons] at hn
    refine ⟨fun q hq => lt_of_le_of_ne (hs.1 q hq) ?_, ?_⟩
    · intro hkey
      exact hn.1 (hkey ▸ List.mem_map_of_mem Prod.fst hq)
    · exact sorted_keyLT_of_sorted_keyLE l hs.2 hn.2

lemma insertionSort_eq_of_perm_keys_nodup (l1 l2 : List (String × String))
    (hp : l1.Perm l2) (hn : (l1.map Prod.fst).Nodup) :
    List.insertionSort keyLE l1 = List.insertionSort keyLE l2 := by
  have p1 := List.perm_insertionSort keyLE l1
  have p2 := List.perm_insertionSort keyLE l2
  have hperm : (List.insertionSort keyLE l1).Perm (List.insertionSort keyLE l2) :=
    p1.trans (hp.trans p2.symm)
  have hn1 : ((List.insertionSort keyLE l1).map Prod.fst).Nodup :=
    ((p1.map Prod.fst).nodup_iff).mpr hn
  have hn2 : ((List.insertionSort keyLE l2).map Prod.fst).Nodup :=
    ((hperm.map Prod.fst).nodup_iff).mp hn1
  exact List.eq_of_perm_of_sorted hperm
    (sorted_keyLT_of_sorted_keyLE _ (List.sorted_insertionSort keyLE l1) hn1)
    (sorted_keyLT_of_sorted_keyLE _ (List.sorted_insertionSort keyLE l2) hn2)

lemma dumps_obj_eq_of_perm (l1 l2 : List (String × Json)) (hp : l1.Perm l2)
    (hn : (l1.map Prod.fst).Nodup) :
    dumps (Json.obj l1) = dumps (Json.obj l2) := by
  have hp' : (dumpsFields l1).Perm (dumpsFields l2) := by
    rw [dumpsFields_eq_map, dumpsFields_eq_map]
    exact hp.map _
  have hn' : ((dumpsFields l1).map Prod.fst).Nodup := by
    rw [keys_dumpsFields]
    exact hn
  simp only [dumps]
  rw [insertionSort_eq_of_perm_keys_nodup _ _ hp' hn']

lemma block_fields_keys_nodup (b : Block) : ((Block.fields b).map Prod.fst).Nodup :=
  show (["index", "timestamp", "transactions", "proof", "previous_hash"] : List String).Nodup
    by decide

/-- C8: the digest is a pure deterministic function of a block's content: the
canonical encoding sorts fields by key, so hashing the block's field dict in
ANY in-memory storage order (any permutation of the five fields) yields the
same digest as the canonical `Blockchain.hash` — and repeated calls trivially
agree since `hash` is a function. -/
theorem hash_deterministic_of_field_order (sha : String → String) (b : Block)
    (stored : List (String × Json)) (hp : stored.Perm (Block.fields b)) :
    sha (dumps (Json.obj stored)) = Blockchain.hash sha b := by
  have hn : (stored.map Prod.fst).Nodup :=
    ((hp.map Prod.fst).nodup_iff).mpr (block_fields_keys_nodup b)
  rw [Blockchain.hash, dumps_obj_eq_of_perm stored (Block.fields b) hp hn]

/-- Witness for C8: storing the genesis block's fields in reverse order still
digests to `Blockchain.hash` of the block. -/
theorem hash_deterministic_of_field_order_witness :
    sha0 (dumps (Json.obj (Block.fields genesisB).reverse)) = Blockchain.hash sha0 genesisB :=
  hash_deterministic_of_field_order sha0 genesisB (Block.fields genesisB).reverse (by decide)

lemma resolve_loop_characterization (sha : String → String) :
    ∀ (cands : List (Int × List Block)) (M : Int) (acc : Option (List Block))
      (res : Option (List Block)),
      Blockchain.resolve_loop sha cands M acc = some res →
      (res = acc ∧ ∀ q ∈ cands, M < q.1 → Blockchain.valid_chain sha q.2 ≠ some true)
      ∨ (∃ q ∈ cands, res = some q.2 ∧ M < q.1 ∧ Blockchain.valid_chain sha q.2 = some true ∧
          ∀ r ∈ cands, M < r.1 → Blockchain.valid_chain sha r.2 = some true → r.1 ≤ q.1)
  | [], M, acc, res => by
    intro h
    rw [Blockchain.resolve_loop] at h
    injection h with h
    exact Or.inl ⟨h.symm, by simp⟩
  | (len, ch) :: rest, M, acc, res => by
    intro h
    rw [Blockchain.resolve_loop] at h
    by_cases hlen : M < len
    · rw [if_pos hlen] at h
      cases hvc : Blockchain.valid_chain sha ch with
      | none =>
        rw [hvc] at h
        exact absurd h (by simp)
      | some b =>
        cases b with
        | false =>
          rw [hvc] at h
          rcases resolve_loop_characterization sha rest M acc res h with
            ⟨h1, h2⟩ | ⟨q, hqm, hq1, hq2, hq3, hq4⟩
          · refine Or.inl ⟨h1, fun q hqmem hql => ?_⟩
            rcases List.mem_cons.mp hqmem with rfl | hqr
            · rw [hvc]
              simp
            · exact h2 q hqr hql
          · refine Or.inr ⟨q, List.mem_cons_of_mem _ hqm, hq1, hq2, hq3,
              fun r hrmem hrl hrv => ?_⟩
            rcases List.mem_cons.mp hrmem with rfl | hrr
            · rw [hvc] at hrv
              exact absurd hrv (by simp)
            · exact hq4 r hrr hrl hrv
        | true =>
          rw [hvc] at h
          rcases resolve_loop_characterization sha rest len (some ch) res h with
            ⟨h1, h2⟩ | ⟨q, hqm, hq1, hq2, hq3, hq4⟩
          · refine Or.inr ⟨(len, ch), List.mem_cons_self _ _, h1, hlen, hvc,
              fun r hrmem hrl hrv => ?_⟩
            rcases List.mem_cons.mp hrmem with rfl | hrr
            · exact le_refl _
            · by_contra hgt
              push_neg at hgt
              exact h2 r hrr hgt hrv
          · refine Or.inr ⟨q, List.mem_cons_of_mem _ hqm, hq1, lt_trans hlen hq2, hq3,
              fun r hrmem hrl hrv => ?_⟩
            rcases List.mem_cons.mp hrmem with rfl | hrr
            · exact le_of_lt hq2
            · by_cases hr2 : len < r.1
              · exact hq4 r hrr hr2 hrv
              · push_neg at hr2
                exact le_trans hr2 (le_of_lt hq2)
    · rw [if_neg hlen] at h
      rcases resolve_loop_characterization sha rest M acc res h with
        ⟨h1, h2⟩ | ⟨q, hqm, hq1, hq2, hq3, hq4⟩
      · refine Or.inl ⟨h1, fun q hqmem hql => ?_⟩
        rcases List.mem_cons.mp hqmem with rfl | hqr
        · exact absurd hql hlen
        · exact h2 q hqr hql
      · refine Or.inr ⟨q, List.mem_cons_of_mem _ hqm, hq1, hq2, hq3,
          fun r hrmem hrl hrv => ?_⟩
        rcases List.mem_cons.mp hrmem with rfl | hrr
        · exact absurd hrl hlen
        · exact hq4 r hrr hrl hrv

lemma resolve_loop_of_no_trigger (sha : String → String) :
    ∀ (cands : List (Int × List Block)) (M : Int) (acc : Option (List Block)),
      (∀ p ∈ cands, p.1 ≤ M) → Blockchain.resolve_loop sha cands M acc = some acc
  | [], M, acc, _ => by rw [Blockchain.resolve_loop]
  | (len, ch) :: rest, M, acc, h => by
    rw [Blockchain.resolve_loop,
      if_neg (not_lt.mpr (h (len, ch) (List.mem_cons_self _ _)))]
    exact resolve_loop_of_no_trigger sha rest M acc
      (fun p hp => h p (List.mem_cons_of_mem _ hp))

lemma valid_chain_isSome_of_ne_nil (sha : String → String) (c : List Block) (h : c ≠ []) :
    ∃ b, Blockchain.valid_chain sha c = some b := by
  obtain ⟨x, xs, rfl⟩ := List.exists_cons_of_ne_nil h
  exact ⟨_, rfl⟩

lemma resolve_loop_total_of_honest (sha : String → String) :
    ∀ (cands : List (Int × List Block)) (M : Int) (acc : Option (List Block)),
      0 ≤ M → (∀ p ∈ cands, p.1 = (p.2.length : Int)) →
      ∃ res, Blockchain.resolve_loop sha cands M acc = some res
  | [], M, acc, _, _ => ⟨acc, by rw [Blockchain.resolve_loop]⟩
  | (len, ch) :: rest, M, acc, hM, h => by
    rw [Blockchain.resolve_loop]
    by_cases hlen : M < len
    · rw [if_pos hlen]
      have hlen' : len = (ch.length : Int) := h (len, ch) (List.mem_cons_self _ _)
      have hch : ch ≠ [] := by
        intro hnil
        rw [hnil] at hlen'
        simp at hlen'
        omega
      obtain ⟨b, hvc⟩ := valid_chain_isSome_of_ne_nil sha ch hch
      rw [hvc]
      cases b with
      | false =>
        exact resolve_loop_total_of_honest sha rest M acc hM
          (fun p hp => h p (List.mem_cons_of_mem _ hp))
      | true =>
        exact resolve_loop_total_of_honest sha rest len (some ch) (le_of_lt (lt_of_le_of_lt hM hlen))
          (fun p hp => h p (List.mem_cons_of_mem _ hp))
    · rw [if_neg hlen]
      exact resolve_loop_total_of_honest sha rest M acc hM
        (fun p hp => h p (List.mem_cons_of_mem _ hp))

lemma valid_chain_ne_nil_of_some (sha : String → String) (c : List Block) (b : Bool)
    (h : Blockchain.valid_chain sha c = some b) : c ≠ [] := by
  intro hnil
  rw [hnil] at h
  exact Option.noConfusion h

/-- The second block of a ledger extended once by `new_block` under `sha0`. -/
def localB2 : Block :=
  { index := 2, timestamp := 5, transactions := [], proof := 7,
    previous_hash := PrevHash.strVal ("x") }

/-- A two-block local state, reachable by `__init__` then one `new_block`. -/
def c2local : State := { chain := [genesisB, localB2], current_transactions := [] }

/-- Counterexample to C2 as stated: a peer that reports length 3 for a chain
whose actual length is 1 gets its chain adopted (the code compares the
reported `length` field, never the chain's own length), so one resolve call
shrinks the reachable two-block local chain to a single block. -/
theorem resolve_can_shorten_chain :
    (Blockchain.new_block sha0 (Blockchain.initState sha0 0) 5 (PrevHash.strVal ("x")) 7).map
        Prod.snd = some c2local
      ∧ Blockchain.resolve_conflicts sha0 c2local [(3, [idx7B])]
        = some (true, { chain := [idx7B], current_transactions := [] })
      ∧ ([idx7B] : List Block).length < c2local.chain.length := by
  decide

/-- C2 (amended): resolution never touches the pending pool; if no candidate
reports a length strictly greater than the local chain's length, the result is
`(false, unchanged state)`; and whenever every candidate's reported length is
honest (equal to its chain's actual length), resolution returns without error
and never shortens the local chain. The amendment adds the honest-length
hypothesis to the no-shortening part: with a lying reported length the code
can adopt a shorter chain (see the counterexample). -/
theorem resolve_never_shortens_amended (sha : String → String) (st : State)
    (cands : List (Int × List Block)) :
    (∀ r st', Blockchain.resolve_conflicts sha st cands = some (r, st') →
      st'.current_transactions = st.current_transactions)
    ∧ ((∀ p ∈ cands, p.1 ≤ (st.chain.length : Int)) →
        Blockchain.resolve_conflicts sha st cands = some (false, st))
    ∧ ((∀ p ∈ cands, p.1 = (p.2.length : Int)) →
        ∃ r st', Blockchain.resolve_conflicts sha st cands = some (r, st') ∧
          st.chain.length ≤ st'.chain.length) := by
  refine ⟨?_, ?_, ?_⟩
  · intro r st' h
    obtain ⟨res, hres, hf⟩ := Option.map_eq_some'.mp h
    cases res with
    | none =>
      injection hf with h1 h2
      rw [← h2]
    | some ch =>
      have hf' : (if ch.isEmpty = true then ((false, st) : Bool × State)
          else (true, { st with chain := ch })) = (r, st') := hf
      by_cases hE : ch.isEmpty = true
      · rw [if_pos hE] at hf'
        injection hf' with h1 h2
        rw [← h2]
      · rw [if_neg hE] at hf'
        injection hf' with h1 h2
        rw [← h2]
  · intro hno
    rw [Blockchain.resolve_conflicts, resolve_loop_of_no_trigger sha cands _ none hno]
    rfl
  · intro honest
    obtain ⟨res, hres⟩ :=
      resolve_loop_total_of_honest sha cands (st.chain.length : Int) none
        (Int.ofNat_nonneg _) honest
    rcases resolve_loop_characterization sha cands _ none res hres with
      ⟨h1, _⟩ | ⟨q, hqm, hq1, hq2, hq3, _⟩
    · subst h1
      refine ⟨false, st, ?_, le_refl _⟩
      rw [Blockchain.resolve_conflicts, hres]
      rfl
    · subst hq1
      have hne : q.2 ≠ [] := valid_chain_ne_nil_of_some sha q.2 true hq3
      have hE : q.2.isEmpty = false := by
        cases hq : q.2 with
        | nil => exact absurd hq hne
        | cons x xs => rfl
      refine ⟨true, { st with chain := q.2 }, ?_, ?_⟩
      · rw [Blockchain.resolve_conflicts, hres]
        simp [hE, hne]
      · have := honest q hqm
        simp only [State.chain]
        omega

/-- Witness for C2 (amended) at a concrete honest candidate list: the lone
candidate honestly reports length 1, which is not longer, so the fresh
one-block chain is not shortened. -/
theorem resolve_never_shortens_amended_witness :
    ∃ r st',
      Blockchain.resolve_conflicts sha0 (Blockchain.initState sha0 0) [(1, [idx7B])]
          = some (r, st') ∧
        (Blockchain.initState sha0 0).chain.length ≤ st'.chain.length :=
  (resolve_never_shortens_amended sha0 (Blockchain.initState sha0 0) [(1, [idx7B])]).2.2
    (by decide)

/-- C3: when a resolve call returns, the `replaced` flag is true iff some
candidate reported a length strictly greater than the local chain's length AND
passed `valid_chain` (so a longer-but-invalid candidate alone leaves the chain
unchanged, as does any set with no such candidate); on replacement the adopted
chain is a reported-longer, valid candidate of maximal reported length; and
when the flag is false the state is unchanged. -/
theorem resolve_conflicts_spec (sha : String → String) (st : State)
    (cands : List (Int × List Block)) (replaced : Bool) (st' : State)
    (h : Blockchain.resolve_conflicts sha st cands = some (replaced, st')) :
    (replaced = true ↔ ∃ p ∈ cands, (st.chain.length : Int) < p.1 ∧
        Blockchain.valid_chain sha p.2 = some true)
    ∧ (replaced = true → ∃ p ∈ cands, st'.chain = p.2 ∧ (st.chain.length : Int) < p.1 ∧
        Blockchain.valid_chain sha p.2 = some true ∧
        ∀ q ∈ cands, (st.chain.length : Int) < q.1 →
          Blockchain.valid_chain sha q.2 = some true → q.1 ≤ p.1)
    ∧ (replaced = false → st' = st) := by
  obtain ⟨res, hres, hf⟩ := Option.map_eq_some'.mp h
  rcases resolve_loop_characterization sha cands _ none res hres with
    ⟨h1, h2⟩ | ⟨q, hqm, hq1, hq2, hq3, hq4⟩
  · subst h1
    injection hf with hr hst
    subst hr
    subst hst
    refine ⟨⟨fun hab => absurd hab (by simp), fun hex => ?_⟩, fun hab => absurd hab (by simp),
      fun _ => rfl⟩
    obtain ⟨p, hpm, hpl, hpv⟩ := hex
    exact absurd hpv (h2 p hpm hpl)
  · subst hq1
    have hne : q.2 ≠ [] := valid_chain_ne_nil_of_some sha q.2 true hq3
    have hE : q.2.isEmpty = false := by
      cases hq : q.2 with
      | nil => exact absurd hq hne
      | cons x xs => rfl
    have hf' : (if q.2.isEmpty = true then ((false, st) : Bool × State)
        else (true, { st with chain := q.2 })) = (replaced, st') := hf
    rw [hE] at hf'
    rw [if_neg (by simp)] at hf'
    injection hf' with hr hst
    subst hr
    subst hst
    refine ⟨⟨fun _ => ⟨q, hqm, hq2, hq3⟩, fun _ => rfl⟩,
      fun _ => ⟨q, hqm, rfl, hq2, hq3, hq4⟩, fun hab => absurd hab (by simp)⟩

/-- Witness for C3 at a concrete input: the lone candidate reports length 5
for a valid one-block chain against a fresh one-block local chain, so it is
adopted and is maximal among the qualifying candidates. -/
theorem resolve_conflicts_spec_witness :
    ∃ p ∈ [((5 : Int), [idx7B])],
      c7adopted.chain = p.2 ∧ ((Blockchain.initState sha0 0).chain.length : Int) < p.1 ∧
      Blockchain.valid_chain sha0 p.2 = some true ∧
      ∀ q ∈ [((5 : Int), [idx7B])],
        ((Blockchain.initState sha0 0).chain.length : Int) < q.1 →
          Blockchain.valid_chain sha0 q.2 = some true → q.1 ≤ p.1 :=
  (resolve_conflicts_spec sha0 (Blockchain.initState sha0 0) [(5, [idx7B])] true c7adopted
    (by decide)).2.1 rfl
